import Mathlib

/-!
Verification development for the Adobe-India-hackathon-25 repository.

The repository consists of two Python programs:
  - adobe-hack-1a/app.py : extracts a title and a heading outline from a PDF;
  - adobe-hack-1b/app.py : extracts text sections from PDFs and ranks them
    against a persona text.

This file shallowly embeds the pure algorithmic content of both programs.
Python strings are modelled as Lean String / List Char (ASCII case model for
lower/upper classification); floating point sizes and scores are modelled as
exact rationals; a call that can raise (the per-line language detector) is
modelled as a function returning Option, with none standing for the raised
exception.
-/

set_option maxHeartbeats 1000000

namespace Adobe

/-! Python string primitives (ASCII model). -/

/-- Python whitespace characters recognised by str.strip and the regex class
for whitespace (ASCII part). -/
def pyIsSpace (c : Char) : Bool :=
  c = ' ' || c = '\t' || c = '\n' || c = '\r' || c = '\x0b' || c = '\x0c'

/-- Strip whitespace from both ends of a character list (Python str.strip). -/
def stripL (l : List Char) : List Char :=
  ((l.dropWhile pyIsSpace).reverse.dropWhile pyIsSpace).reverse

/-- Python str.strip on strings. -/
def pyStrip (s : String) : String := ⟨stripL s.data⟩

/-- Python str.lower, ASCII model. -/
def lowerL (l : List Char) : List Char := l.map Char.toLower

/-- Python str.lower on strings. -/
def pyLower (s : String) : String := ⟨lowerL s.data⟩

/-- Python str.isupper, ASCII model: at least one cased character and no
lower-case cased character. -/
def pyIsUpper (l : List Char) : Bool :=
  l.any Char.isAlpha && l.all (fun c => !c.isAlpha || c.isUpper)

/-- Substring test: does hay contain needle as a contiguous substring
(Python `needle in hay`)? -/
def containsSub : List Char → List Char → Bool
  | [], needle => needle.isPrefixOf []
  | c :: t, needle => needle.isPrefixOf (c :: t) || containsSub t needle

/-- Take the first n characters of a string (Python slicing s[:n]). -/
def takeStr (n : Nat) (s : String) : String := ⟨s.data.take n⟩

/-- POSIX basename: the part of the path after the last slash. -/
def basename (s : String) : String :=
  ⟨(s.data.reverse.takeWhile (fun c => c ≠ '/')).reverse⟩

/-! The leading-numbering pattern.  Both programs use the regular expression
`^\d+(\.\d+)*\s+` (re.match, i.e. anchored at the start).  Because the
character classes digit, dot and whitespace are pairwise disjoint, the greedy
left-to-right matcher below is equivalent to the backtracking regex. -/

/-- Drop a maximal run of leading digits. -/
def dropDigits (l : List Char) : List Char := l.dropWhile Char.isDigit

/-- Scanner for the group part `(\.\d+)*`: the first argument records
whether at least one digit has been read since the last dot, the second the
characters read since the last complete group (reversed), the third the
remaining input.  The result is the input remaining after the maximal run of
complete groups. -/
def runDotGroups : Bool → List Char → List Char → List Char
  | false, acc, [] => acc.reverse
  | true, _, [] => []
  | false, acc, c :: rest =>
    if c.isDigit then runDotGroups true (c :: acc) rest
    else acc.reverse ++ c :: rest
  | true, acc, c :: rest =>
    if c.isDigit then runDotGroups true (c :: acc) rest
    else if c = '.' then runDotGroups false [c] rest
    else c :: rest

/-- Consume the maximal run of groups matching `(\.\d+)*` and return the rest
of the input. -/
def eatDotGroups : List Char → List Char
  | [] => []
  | c :: rest => if c = '.' then runDotGroups false [c] rest else c :: rest

/-- Does the text match the anchored pattern `\d+(\.\d+)*\s+`
(as used by `re.match(r'^\d+(\.\d+)*\s+', text)`)? -/
def numberedStart (l : List Char) : Bool :=
  match l with
  | [] => false
  | c :: _ =>
    c.isDigit &&
      match eatDotGroups (dropDigits l) with
      | [] => false
      | w :: _ => pyIsSpace w

/-- Number of literal dot characters in the text (Python `text.count(".")`). -/
def countDots (l : List Char) : Nat := l.count '.'

/-- Embedding of `classify_heading_level` from adobe-hack-1a/app.py:
if the text matches the leading-numbering regex, the level is
`H(min(text.count(".") + 1, 3))` (note: dots are counted over the WHOLE
text, not just over the matched numeric prefix); otherwise None. -/
def classify_heading_level (text : String) : Option String :=
  if numberedStart text.data then
    some ("H" ++ toString (min (countDots text.data + 1) 3))
  else
    none

/-! Rounding and mode.  `round(x, 1)` in Python rounds to one decimal with
ties-to-even; floats are modelled as exact rationals.
`Counter(xs).most_common(1)[0][0]` returns the most frequent element, ties
broken by first insertion order (Counter preserves insertion order and
most_common sorts stably by count). -/

/-- Floor of a rational, written with explicit flooring integer division so
that it evaluates inside the kernel. -/
def floorQ (q : ℚ) : ℤ := q.num.fdiv (q.den : ℤ)

/-- Python round(x, 1) on an exact rational (ties to even). -/
def round1 (q : ℚ) : ℚ :=
  let x := q * 10
  let n : ℤ := floorQ x
  let r : ℤ :=
    if (1 : ℚ)/2 < x - n then n + 1
    else if x - n < 1/2 then n
    else if n % 2 = 0 then n else n + 1
  (r : ℚ) / 10

/-- The list of distinct elements in first-occurrence order, with the set of
already emitted elements as an accumulator. -/
def firstDedupAux {α : Type} [DecidableEq α] : List α → List α → List α
  | [], _ => []
  | a :: l, seen =>
    if seen.contains a then firstDedupAux l seen
    else a :: firstDedupAux l (a :: seen)

/-- The list of distinct elements in first-occurrence order. -/
def firstDedup {α : Type} [DecidableEq α] (l : List α) : List α :=
  firstDedupAux l []

/-- Embedding of `Counter(xs).most_common(1)[0][0]`: the element with the
largest multiplicity, first-seen element winning ties. -/
def modeOf {α : Type} [DecidableEq α] (l : List α) : Option α :=
  (firstDedup l).foldl
    (fun acc a =>
      match acc with
      | none => some a
      | some b => if l.count b < l.count a then some a else some b)
    none

/-! Data model for the PyMuPDF structures that both programs read.
A span is one style run inside a visual line; `flags` is the style bitmask
(bit 1 set means bold); `y0` is `block["bbox"][1]`, the top coordinate of a
block; block type 0 marks a text block. -/

structure Span where
  text : String
  size : ℚ
  font : String
  flags : Nat
deriving DecidableEq

structure TextLine where
  spans : List Span
deriving DecidableEq

structure Block where
  btype : Nat
  y0 : ℚ
  lines : List TextLine
deriving DecidableEq

structure Page where
  blocks : List Block
deriving DecidableEq

structure Doc where
  metaTitle : Option String
  name : String
  pages : List Page
  page1Height : ℚ
deriving DecidableEq

/-- Bold bit of a span style bitmask (`flags & 2`). -/
def spanBold (flags : Nat) : Bool := flags.testBit 1

/-- Text of one visual line as read by detect_title (1a) and
extract_sections (1b): `" ".join(span["text"] for span in line["spans"]).strip()`. -/
def lineTextJoined (ln : TextLine) : String :=
  pyStrip (String.intercalate " " (ln.spans.map Span.text))

/-! Embedding of `detect_title` from adobe-hack-1a/app.py. -/

/-- Inner loop of detect_title over the lines of one block: return the first
joined line text that is non-empty and longer than 5 characters. -/
def titleFromLines : List TextLine → Option String
  | [] => none
  | ln :: rest =>
    let t := lineTextJoined ln
    if t ≠ "" && decide (5 < t.length) then some t else titleFromLines rest

/-- Outer loop of detect_title over the top blocks of page 1. -/
def titleFromBlocks : List Block → Option String
  | [] => none
  | b :: rest =>
    match titleFromLines b.lines with
    | some t => some t
    | none => titleFromBlocks rest

/-- First page of the document (`doc[0]`; documents are assumed non-empty,
as in the Python code, which would raise on an empty document). -/
def firstPage (doc : Doc) : Page := doc.pages.headD ⟨[]⟩

/-- Embedding of `detect_title`: prefer the metadata title when truthy and
longer than 5 characters after stripping; otherwise scan the text blocks in
the top quarter of page 1 and return the first line text longer than
5 characters; otherwise the basename of the file. -/
def detect_title (doc : Doc) : String :=
  let metaCase : Option String :=
    match doc.metaTitle with
    | some mt => if mt ≠ "" && decide (5 < (pyStrip mt).length) then some (pyStrip mt) else none
    | none => none
  match metaCase with
  | some t => t
  | none =>
    let topBlocks := (firstPage doc).blocks.filter
      (fun b => b.btype == 0 && decide (b.y0 < doc.page1Height * (25/100)))
    match titleFromBlocks topBlocks with
    | some t => t
    | none => basename doc.name

/-- Modelled from the spec wording of title detection: metadata title when
present and longer than 5 characters after trimming; otherwise the first
line, over blocks restricted to the top 25 percent of page-1 height in
block-then-line order, whose trimmed text exceeds 5 characters; otherwise
the basename of the source file. -/
def detect_title_spec (doc : Doc) : String :=
  match (doc.metaTitle.map pyStrip).filter (fun t => 5 < t.length) with
  | some t => t
  | none =>
    let topBlocks := (firstPage doc).blocks.filter
      (fun b => b.btype == 0 && decide (b.y0 < doc.page1Height * (25/100)))
    match ((topBlocks.flatMap Block.lines).map lineTextJoined).find?
        (fun t => 5 < t.length) with
    | some t => t
    | none => basename doc.name

/-! Embedding of `extract_outline` from adobe-hack-1a/app.py.  The language
detector `langdetect.detect`, which may raise, is modelled as a parameter
`detect : String → Option String`; `none` stands for the raised exception
and the `try/except` is the `getD "unknown"`. -/

structure Candidate where
  text : String
  page : Nat
  font_size : ℚ
  font_name : String
  is_bold : Bool
  language : String
deriving DecidableEq

/-- Per-line work of the candidate loop: process the spans of one line,
producing the optional candidate and the contribution to the document-wide
font size list.  A span whose stripped text is empty is skipped; each kept
span contributes its rounded size both to the per-line style list and to the
global size list, and its stripped text (plus a space) to the line text. -/
def lineCandidate (detect : String → Option String) (pageNum : Nat)
    (ln : TextLine) : Option Candidate × List ℚ :=
  let kept := ln.spans.filterMap (fun sp =>
    let t := pyStrip sp.text
    if t = "" then none
    else some ((round1 sp.size, sp.font, spanBold sp.flags), t))
  let spanFonts := kept.map Prod.fst
  let sizes := spanFonts.map (fun f => f.1)
  let fullText := pyStrip (kept.foldl (fun acc p => acc ++ p.2 ++ " ") "")
  if fullText = "" then (none, sizes)
  else
    let language := (detect fullText).getD "unknown"
    let mc := (modeOf spanFonts).getD (0, "", false)
    (some ⟨fullText, pageNum, mc.1, mc.2.1, mc.2.2, language⟩, sizes)

/-- Candidate loop over the lines of one block. -/
def linesData (detect : String → Option String) (pageNum : Nat) :
    List TextLine → List Candidate × List ℚ
  | [] => ([], [])
  | ln :: rest =>
    let r := lineCandidate detect pageNum ln
    let rs := linesData detect pageNum rest
    (r.1.toList ++ rs.1, r.2 ++ rs.2)

/-- Candidate loop over the blocks of one page; non-text blocks are skipped. -/
def blocksData (detect : String → Option String) (pageNum : Nat) :
    List Block → List Candidate × List ℚ
  | [] => ([], [])
  | b :: rest =>
    let r := if b.btype == 0 then linesData detect pageNum b.lines else ([], [])
    let rs := blocksData detect pageNum rest
    (r.1 ++ rs.1, r.2 ++ rs.2)

/-- Candidate loop over the pages, numbered from `n`. -/
def pagesData (detect : String → Option String) :
    Nat → List Page → List Candidate × List ℚ
  | _, [] => ([], [])
  | n, pg :: rest =>
    let r := blocksData detect n pg.blocks
    let rs := pagesData detect (n + 1) rest
    (r.1 ++ rs.1, r.2 ++ rs.2)

/-- All candidates and all collected font sizes of a document
(pages numbered from 1, as in `enumerate(doc, start=1)`). -/
def docCandidates (detect : String → Option String) (doc : Doc) :
    List Candidate × List ℚ :=
  pagesData detect 1 doc.pages

/-- The OR of the four heading heuristics of extract_outline: font size more
than 1.0 above the document body size, bold style, fully upper-case text, or
a leading numbering match. -/
def headingSignals (bodySize : ℚ) (c : Candidate) : Bool :=
  decide (bodySize + 1 < c.font_size) || c.is_bold ||
    pyIsUpper c.text.data || numberedStart c.text.data

structure OutlineEntry where
  level : String
  text : String
  page : Nat
  language : String
deriving DecidableEq

/-- Outline entry built from a candidate:
`classify_heading_level(text) or "H1"`. -/
def mkEntry (c : Candidate) : OutlineEntry :=
  ⟨(classify_heading_level c.text).getD "H1", c.text, c.page, c.language⟩

/-- The dedup-and-classify loop of extract_outline, with the running set of
seen texts as an explicit list: skip a candidate whose text was already seen
or is shorter than 5 characters; otherwise record the text as seen and emit
an entry when the heading heuristics fire. -/
def outlineLoop (bodySize : ℚ) : List Candidate → List String → List OutlineEntry
  | [], _ => []
  | c :: rest, seen =>
    if seen.contains c.text || decide (c.text.length < 5) then
      outlineLoop bodySize rest seen
    else
      if headingSignals bodySize c then
        mkEntry c :: outlineLoop bodySize rest (c.text :: seen)
      else
        outlineLoop bodySize rest (c.text :: seen)

/-- Embedding of `extract_outline`: collect candidates and font sizes, stop
with an empty outline when no sizes were collected, otherwise classify each
deduplicated candidate against the modal body size. -/
def extract_outline (detect : String → Option String) (doc : Doc) :
    List OutlineEntry :=
  let r := docCandidates detect doc
  if r.2.isEmpty then []
  else outlineLoop ((modeOf r.2).getD 0) r.1 []

/-- The deduplicated candidate stream: candidates surviving the seen-text
and minimum-length filters, in order. -/
def dedupKeep : List Candidate → List String → List Candidate
  | [], _ => []
  | c :: rest, seen =>
    if seen.contains c.text || decide (c.text.length < 5) then
      dedupKeep rest seen
    else
      c :: dedupKeep rest (c.text :: seen)

/-! Embedding of adobe-hack-1b/app.py. -/

/-- The keyword vocabulary `financial_keywords`, in source order. -/
def financial_keywords : List String :=
  ["revenue", "R&D", "research and development", "investment", "funding",
   "capital", "expenses", "profit", "net income", "earnings", "loss", "cost",
   "market", "competition", "strategy", "positioning", "growth", "trend",
   "Q1", "Q2", "Q3", "Q4", "2022", "2023", "2024", "financial performance",
   "annual report", "income statement", "balance sheet"]

/-- One containment test of the boost loop:
`word.lower() in text.lower()`. -/
def kwMatch (text w : String) : Bool :=
  containsSub (lowerL text.data) (lowerL w.data)

/-- Embedding of `boost_score_with_keywords`: one point of boost per
vocabulary entry whose lowercase form occurs in the lowercase text, final
score is the original score plus 0.05 per point (floats modelled as exact
rationals). -/
def boost_score_with_keywords (text : String) (original_score : ℚ) : ℚ :=
  let boost : Nat :=
    financial_keywords.foldl (fun b w => if kwMatch text w then b + 1 else b) 0
  original_score + (5/100) * boost

/-- Modelled from the spec wording of the keyword boost: the number of
vocabulary terms whose lowercase form occurs as a substring of the
lowercased section text. -/
def specKeywordCount (text : String) : Nat :=
  (financial_keywords.filter (fun w =>
    containsSub (lowerL text.data) (lowerL w.data))).length

/-- A section record as assembled by extract_sections (without the score,
which is attached later by score_sections). -/
structure SectionRec where
  document : String
  page : Nat
  section_title : String
  refined_text : String
  level : String
  language : String
  bold : Bool
deriving DecidableEq

/-- The substrings whose presence in the lowercased line text discards the
line as embedded code or a directory-tree dump. -/
def codeMarkers : List String := [".py", ".keras", "│", "├──", "└──"]

def hasCodeMarker (t : String) : Bool :=
  codeMarkers.any (fun m => containsSub (lowerL t.data) m.data)

/-- Per-line work of extract_sections: join the span texts, drop empty or
short (under 30 characters) lines and lines with code markers, otherwise
build the record (title and refined text are prefixes of the line text, bold
when any span font name contains "Bold"). -/
def lineSection (detect : String → Option String) (docName : String)
    (pageNum : Nat) (ln : TextLine) : Option SectionRec :=
  let t := lineTextJoined ln
  if t = "" || decide (t.length < 30) then none
  else if hasCodeMarker t then none
  else
    some
      { document := docName
        page := pageNum
        section_title := takeStr 120 t
        refined_text := takeStr 600 t
        level := "H1"
        language := (detect t).getD "unknown"
        bold := ln.spans.any (fun sp => containsSub sp.font.data "Bold".data) }

def linesSections (detect : String → Option String) (docName : String)
    (pageNum : Nat) : List TextLine → List SectionRec
  | [] => []
  | ln :: rest =>
    (lineSection detect docName pageNum ln).toList ++
      linesSections detect docName pageNum rest

def blocksSections (detect : String → Option String) (docName : String)
    (pageNum : Nat) : List Block → List SectionRec
  | [] => []
  | b :: rest =>
    (if b.btype == 0 then linesSections detect docName pageNum b.lines else [])
      ++ blocksSections detect docName pageNum rest

def pagesSections (detect : String → Option String) (docName : String) :
    Nat → List Page → List SectionRec
  | _, [] => []
  | n, pg :: rest =>
    blocksSections detect docName n pg.blocks ++
      pagesSections detect docName (n + 1) rest

/-- Embedding of `extract_sections`: the document field is the basename of
the input path; pages are numbered from 1. -/
def extract_sections (detect : String → Option String) (pdfPath : String)
    (doc : Doc) : List SectionRec :=
  pagesSections detect (basename pdfPath) 1 doc.pages

/-- A section together with its final (boosted) score, as after the scoring
loop of score_sections. -/
structure ScoredSection where
  sec : SectionRec
  boosted_score : ℚ
deriving DecidableEq

/-- The text a section is scored on:
`section.get("refined_text") or section.get("section_title", "")`. -/
def sectionText (s : SectionRec) : String :=
  if s.refined_text ≠ "" then s.refined_text else s.section_title

/-- The scoring loop of score_sections.  The embedding model and the cosine
similarity against the fixed persona embedding are modelled together as a
function `sim` from the section text to the base score. -/
def scoredOf (sim : String → ℚ) (secs : List SectionRec) : List ScoredSection :=
  secs.map (fun s => ⟨s, boost_score_with_keywords (sectionText s) (sim (sectionText s))⟩)

/-- The comparison of the sort in score_sections: a precedes b when the
boosted score of a is at least that of b. -/
def scoreGE (a b : ScoredSection) : Bool :=
  decide (b.boosted_score ≤ a.boosted_score)

/-- Embedding of `score_sections`: score every section, then
`sections.sort(key=..., reverse=True)` — a stable sort, descending by
boosted score, which is `mergeSort` under the reflexive total relation
"score at least as large". -/
def score_sections (sim : String → ℚ) (secs : List SectionRec) :
    List ScoredSection :=
  (scoredOf sim secs).mergeSort scoreGE

/-- The truncation in main: `score_sections(...)[:20]`. -/
def rankedSections (sim : String → ℚ) (secs : List SectionRec) :
    List ScoredSection :=
  (score_sections sim secs).take 20

/-- Rank assignment in main: `enumerate(ranked, start=1)`. -/
def withRanks (l : List ScoredSection) : List (ScoredSection × Nat) :=
  l.zip (List.range' 1 l.length)

/-- The file filter of the processing loop in main:
`fname.lower().endswith(".pdf")`. -/
def processed_input_names (files : List String) : List String :=
  files.filter (fun f => ".pdf".data.isSuffixOf (lowerL f.data))

/-- The file filter of the metadata input_documents list in main:
`f.endswith(".pdf")` (case sensitive). -/
def metadata_input_documents (files : List String) : List String :=
  files.filter (fun f => ".pdf".data.isSuffixOf f.data)

/-- The aggregation loop of main: sections of every processed file, in
directory order; `docOf` models opening the file behind a name. -/
def all_sections (detect : String → Option String) (docOf : String → Doc)
    (files : List String) : List SectionRec :=
  (processed_input_names files).flatMap
    (fun f => extract_sections detect f (docOf f))

/-! Language-free projections, used to state that the pipelines depend on
the language detector only through the language fields. -/

/-- All fields of a candidate except its language. -/
def candCore (c : Candidate) : String × Nat × ℚ × String × Bool :=
  (c.text, c.page, c.font_size, c.font_name, c.is_bold)

/-- All fields of an outline entry except its language. -/
def entryCore (e : OutlineEntry) : String × String × Nat :=
  (e.level, e.text, e.page)

/-- All fields of a section record except its language. -/
def secCore (s : SectionRec) : String × Nat × String × String × String × Bool :=
  (s.document, s.page, s.section_title, s.refined_text, s.level, s.bold)

/-! Concrete inputs used by the claim theorems and witnesses. -/

/-- A language detector that always fails (every call raises). -/
def noDetect : String → Option String := fun _ => none

/-- A one-page document whose two lines both carry a numeric prefix; the
first line contains dots outside its numeric prefix. -/
def c2Doc : Doc :=
  { metaTitle := none
    name := "input/a.pdf"
    pages :=
      [⟨[⟨0, 0,
          [⟨[⟨"1 Introduction to U.S. markets", 12, "Helv", 0⟩]⟩,
           ⟨[⟨"1.1 Overview", 12, "Helv", 0⟩]⟩]⟩]⟩]
    page1Height := 800 }

/-- The spec scenario document: a single bold 18pt line "1.1 Introduction". -/
def scenDoc : Doc :=
  { metaTitle := none
    name := "x.pdf"
    pages := [⟨[⟨0, 0, [⟨[⟨"1.1 Introduction", 18, "Helv-Bold", 2⟩]⟩]⟩]⟩]
    page1Height := 800 }

/-- A one-page document with a single long prose line. -/
def w8Doc : Doc :=
  { metaTitle := none
    name := "input/b.pdf"
    pages :=
      [⟨[⟨0, 0,
          [⟨[⟨"This is a sufficiently long line of prose text.", 11, "Helv", 0⟩]⟩,
           ⟨[⟨"short line", 11, "Helv", 0⟩]⟩]⟩]⟩]
    page1Height := 800 }

/-- The vocabulary entries strictly between "revenue" and "Q3" in
financial_keywords. -/
def kwMid : List String :=
  ["R&D", "research and development", "investment", "funding", "capital",
   "expenses", "profit", "net income", "earnings", "loss", "cost", "market",
   "competition", "strategy", "positioning", "growth", "trend", "Q1", "Q2"]

/-- The vocabulary entries after "Q3" in financial_keywords. -/
def kwRest : List String :=
  ["Q4", "2022", "2023", "2024", "financial performance", "annual report",
   "income statement", "balance sheet"]

/-- First section record of the C5 witness pair. -/
def w5a : SectionRec :=
  { document := "x.pdf", page := 1
    section_title := "zzz zzz zzz", refined_text := "zzz zzz zzz"
    level := "H1", language := "unknown", bold := false }

/-- Second section record of the C5 witness pair. -/
def w5b : SectionRec :=
  { document := "y.pdf", page := 2
    section_title := "zzz zzz zzz", refined_text := "zzz zzz zzz"
    level := "H1", language := "unknown", bold := false }

/-- The section record extracted from the long line of w8Doc. -/
def w8Sec : SectionRec :=
  { document := "b.pdf"
    page := 1
    section_title := "This is a sufficiently long line of prose text."
    refined_text := "This is a sufficiently long line of prose text."
    level := "H1"
    language := "unknown"
    bold := false }

end Adobe

namespace Adobe

/-! Helper lemmas about the section extraction loops. -/

theorem mem_linesSections {detect : String → Option String} {dn : String}
    {n : Nat} {s : SectionRec} :
    ∀ {lns : List TextLine}, s ∈ linesSections detect dn n lns →
      ∃ ln ∈ lns, lineSection detect dn n ln = some s := by
  intro lns h
  induction lns with
  | nil => simp [linesSections] at h
  | cons ln rest ih =>
    simp only [linesSections, List.mem_append] at h
    rcases h with h | h
    · refine ⟨ln, List.mem_cons_self ln rest, ?_⟩
      cases hls : lineSection detect dn n ln with
      | none => simp [hls] at h
      | some v => simp [hls] at h; simp [h]
    · obtain ⟨ln', hln', hv⟩ := ih h
      exact ⟨ln', List.mem_cons_of_mem _ hln', hv⟩

theorem mem_blocksSections {detect : String → Option String} {dn : String}
    {n : Nat} {s : SectionRec} :
    ∀ {bs : List Block}, s ∈ blocksSections detect dn n bs →
      ∃ ln, lineSection detect dn n ln = some s := by
  intro bs h
  induction bs with
  | nil => simp [blocksSections] at h
  | cons b rest ih =>
    simp only [blocksSections, List.mem_append] at h
    rcases h with h | h
    · by_cases hb : b.btype == 0
      · simp only [hb, if_true] at h
        obtain ⟨ln, _, hv⟩ := mem_linesSections h
        exact ⟨ln, hv⟩
      · simp [hb] at h
    · exact ih h

theorem mem_pagesSections {detect : String → Option String} {dn : String}
    {s : SectionRec} :
    ∀ {n : Nat} {pgs : List Page}, s ∈ pagesSections detect dn n pgs →
      ∃ m ln, lineSection detect dn m ln = some s := by
  intro n pgs
  induction pgs generalizing n with
  | nil => intro h; simp [pagesSections] at h
  | cons pg rest ih =>
    intro h
    simp only [pagesSections, List.mem_append] at h
    rcases h with h | h
    · obtain ⟨ln, hv⟩ := mem_blocksSections h
      exact ⟨n, ln, hv⟩
    · exact ih h

theorem takeStr_length (n : Nat) (s : String) :
    (takeStr n s).length = min n s.length := by
  cases s with
  | mk data => exact List.length_take ..

theorem lineSection_some_length {detect : String → Option String} {dn : String}
    {n : Nat} {ln : TextLine} {s : SectionRec}
    (h : lineSection detect dn n ln = some s) :
    30 ≤ s.section_title.length ∧ 30 ≤ s.refined_text.length := by
  unfold lineSection at h
  simp only [] at h
  split at h
  · exact absurd h (by simp)
  next h1 =>
    split at h
    · exact absurd h (by simp)
    next h2 =>
      have hlen : 30 ≤ (lineTextJoined ln).length := by
        rcases Nat.lt_or_ge (lineTextJoined ln).length 30 with hc | hc
        · exact absurd (by simp [hc]) h1
        · exact hc
      cases h
      refine ⟨?_, ?_⟩
      · show 30 ≤ (takeStr 120 (lineTextJoined ln)).length
        rw [takeStr_length]
        omega
      · show 30 ≤ (takeStr 600 (lineTextJoined ln)).length
        rw [takeStr_length]
        omega

/-- C1: the claim states that the heading level is computed from the dot
separators of the leading numeric prefix alone.  The code instead counts
every dot of the whole line (`text.count(".")`).  On the line
"1 Introduction to U.S. markets" the numeric prefix "1 " has no dot
separator, so the claim demands level H1, but the code counts the two dots
of "U.S." and assigns H3. -/
theorem C1_level_counts_dots_of_whole_text :
    classify_heading_level "1 Introduction to U.S. markets" = some "H3" := by
  decide

/-- C2: the claim states that among numeric-prefixed heading candidates more
prefix dot separators never yield a lower level number.  In this document
the first line has a prefix with zero dot separators but receives H3 (from
the dots of "U.S."), while the second line has a prefix with one dot
separator and receives H2 — strictly more prefix separators, strictly lower
level number. -/
theorem C2_prefix_depth_not_monotone :
    extract_outline noDetect c2Doc =
      [⟨"H3", "1 Introduction to U.S. markets", 1, "unknown"⟩,
       ⟨"H2", "1.1 Overview", 1, "unknown"⟩] := by
  with_unfolding_all decide

/-- C8: every record produced by the section collector stems from a line
whose joined text has at least 30 characters, hence both its stored title
and its stored body have at least 30 characters; shorter lines are
discarded. -/
theorem C8_no_short_line_in_sections
    (detect : String → Option String) (path : String) (doc : Doc)
    (s : SectionRec) (hs : s ∈ extract_sections detect path doc) :
    30 ≤ s.section_title.length ∧ 30 ≤ s.refined_text.length := by
  obtain ⟨m, ln, hv⟩ := mem_pagesSections hs
  exact lineSection_some_length hv

/-- Witness for C8 at a concrete document: the 47-character line is kept and
its record satisfies the 30-character bounds, while the short line of the
same document yields no record. -/
theorem C8_witness :
    w8Sec ∈ extract_sections noDetect "input/b.pdf" w8Doc ∧
      30 ≤ w8Sec.section_title.length ∧ 30 ≤ w8Sec.refined_text.length :=
  ⟨by decide, C8_no_short_line_in_sections noDetect "input/b.pdf" w8Doc w8Sec (by decide)⟩

/-! Helper lemmas about title detection. -/

theorem ne_empty_of_five_lt_length {t : String} (h : 5 < t.length) : t ≠ "" := by
  intro he
  rw [he] at h
  exact absurd h (by decide)

theorem titleFromLines_eq_find? (lns : List TextLine) :
    titleFromLines lns =
      (lns.map lineTextJoined).find? (fun t => decide (5 < t.length)) := by
  induction lns with
  | nil => rfl
  | cons ln rest ih =>
    by_cases h5 : 5 < (lineTextJoined ln).length
    · have hne : lineTextJoined ln ≠ "" := ne_empty_of_five_lt_length h5
      simp [titleFromLines, hne, h5]
    · simp [titleFromLines, h5, ih]

theorem titleFromBlocks_eq_find? (bs : List Block) :
    titleFromBlocks bs =
      ((bs.flatMap Block.lines).map lineTextJoined).find?
        (fun t => decide (5 < t.length)) := by
  induction bs with
  | nil => rfl
  | cons b rest ih =>
    simp only [List.flatMap_cons, List.map_append, List.find?_append]
    rw [← titleFromLines_eq_find?, ← ih]
    cases h : titleFromLines b.lines with
    | some t => simp [titleFromBlocks, h]
    | none => simp [titleFromBlocks, h]

/-- C7: the implemented title detection agrees everywhere with the
spec-worded description: metadata title when present and longer than
5 characters after trimming; otherwise the first line text exceeding
5 characters among the text blocks in the top quarter of page 1, in
block-then-line order; otherwise the basename of the file. -/
theorem C7_detect_title_eq_spec (doc : Doc) :
    detect_title doc = detect_title_spec doc := by
  unfold detect_title detect_title_spec
  cases hm : doc.metaTitle with
  | none =>
    dsimp only [Option.map_none', Option.filter_none]
    rw [titleFromBlocks_eq_find?]
  | some mt =>
    dsimp only [Option.map_some']
    rw [Option.filter_some]
    by_cases h5 : 5 < (pyStrip mt).length
    · have hne : mt ≠ "" := by
        intro he
        rw [he] at h5
        exact absurd h5 (by decide)
      rw [if_pos (by simp [hne, h5]), if_pos (by simp [h5])]
    · rw [if_neg (by simp [h5]), if_neg (by simp [h5])]
      rw [titleFromBlocks_eq_find?]

/-! Helper lemmas about the outline dedup-and-classify loop. -/

theorem outlineLoop_eq_filter_dedup (b : ℚ) :
    ∀ (cs : List Candidate) (seen : List String),
      outlineLoop b cs seen =
        ((dedupKeep cs seen).filter (headingSignals b)).map mkEntry := by
  intro cs
  induction cs with
  | nil => intro seen; rfl
  | cons c rest ih =>
    intro seen
    by_cases hskip : (seen.contains c.text || decide (c.text.length < 5)) = true
    · rw [outlineLoop, dedupKeep, if_pos hskip, if_pos hskip, ih]
    · rw [outlineLoop, dedupKeep, if_neg hskip, if_neg hskip]
      by_cases hh : headingSignals b c = true
      · rw [if_pos hh, List.filter_cons_of_pos hh, List.map_cons, ih]
      · rw [if_neg hh, List.filter_cons_of_neg hh, ih]

theorem mem_dedupKeep_spec :
    ∀ {cs : List Candidate} {seen : List String} {c : Candidate},
      c ∈ dedupKeep cs seen →
        seen.contains c.text = false ∧ 5 ≤ c.text.length ∧
          cs.find? (fun d => d.text == c.text) = some c := by
  intro cs
  induction cs with
  | nil => intro seen c hc; simp [dedupKeep] at hc
  | cons d rest ih =>
    intro seen c hc
    by_cases hskip : (seen.contains d.text || decide (d.text.length < 5)) = true
    · rw [dedupKeep, if_pos hskip] at hc
      obtain ⟨hseen, hlen, hfind⟩ := ih hc
      have hne : d.text ≠ c.text := by
        intro he
        rcases Bool.or_eq_true_iff.mp hskip with hs | hs
        · rw [he, hseen] at hs
          exact Bool.false_ne_true hs
        · rw [decide_eq_true_eq, he] at hs
          omega
      refine ⟨hseen, hlen, ?_⟩
      rw [List.find?_cons_of_neg _ (by simp only [beq_iff_eq]; exact hne), hfind]
    · rw [dedupKeep, if_neg hskip] at hc
      rcases List.mem_cons.mp hc with rfl | hc
      · have h1 : seen.contains c.text = false := by
          rcases hb : seen.contains c.text with _ | _
          · rfl
          · exact absurd (by rw [hb, Bool.true_or]) hskip
        have h2 : 5 ≤ c.text.length := by
          rcases Nat.lt_or_ge c.text.length 5 with hlt | hge
          · exact absurd (by rw [decide_eq_true hlt, Bool.or_true]) hskip
          · exact hge
        exact ⟨h1, h2, by rw [List.find?_cons_of_pos _ (by simp)]⟩
      · obtain ⟨hseen, hlen, hfind⟩ := ih hc
        rw [List.contains_cons] at hseen
        have hpair := Bool.or_eq_false_iff.mp hseen
        have h3 : c.text ≠ d.text := by
          intro he
          have := hpair.1
          rw [he] at this
          simp at this
        refine ⟨hpair.2, hlen, ?_⟩
        rw [List.find?_cons_of_neg _
          (by simp only [beq_iff_eq]; exact fun h => h3 h.symm), hfind]

theorem dedupKeep_sublist :
    ∀ (cs : List Candidate) (seen : List String),
      List.Sublist (dedupKeep cs seen) cs := by
  intro cs
  induction cs with
  | nil => intro seen; exact List.Sublist.refl _
  | cons d rest ih =>
    intro seen
    rw [dedupKeep]
    split
    · exact (ih seen).cons d
    · exact (ih (d.text :: seen)).cons₂ d

theorem dedupKeep_pairwise :
    ∀ (cs : List Candidate) (seen : List String),
      (dedupKeep cs seen).Pairwise (fun a b => a.text ≠ b.text) := by
  intro cs
  induction cs with
  | nil => intro seen; exact List.Pairwise.nil
  | cons d rest ih =>
    intro seen
    rw [dedupKeep]
    split
    · exact ih seen
    · refine List.Pairwise.cons ?_ (ih (d.text :: seen))
      intro e he
      obtain ⟨hs1, -, -⟩ := mem_dedupKeep_spec he
      rw [List.contains_cons] at hs1
      have hne := (Bool.or_eq_false_iff.mp hs1).1
      intro hde
      rw [← hde] at hne
      simp at hne

theorem foldl_count_eq_countP (p : String → Bool) :
    ∀ (l : List String) (n : Nat),
      l.foldl (fun b w => if p w then b + 1 else b) n = n + l.countP p := by
  intro l
  induction l with
  | nil => intro n; simp
  | cons w t ih =>
    intro n
    by_cases hw : p w
    · simp only [List.foldl_cons, hw, if_true, ih, List.countP_cons_of_pos _ _ hw]
      omega
    · simp only [List.foldl_cons, hw, if_false, ih, List.countP_cons_of_neg _ _ hw]
      simp

theorem kw_split : financial_keywords = "revenue" :: (kwMid ++ "Q3" :: kwRest) := by
  decide

theorem countP_gain_two {t1 t2 : String}
    (h1r : kwMatch t1 "revenue" = true) (h1q : kwMatch t1 "Q3" = true)
    (h2r : kwMatch t2 "revenue" = false) (h2q : kwMatch t2 "Q3" = false)
    (hrest : ∀ w ∈ financial_keywords, w ≠ "revenue" → w ≠ "Q3" →
      kwMatch t1 w = kwMatch t2 w) :
    financial_keywords.countP (kwMatch t2) + 2 ≤
      financial_keywords.countP (kwMatch t1) := by
  have hmem : ∀ w ∈ kwMid ++ kwRest,
      w ∈ financial_keywords ∧ w ≠ "revenue" ∧ w ≠ "Q3" := by decide
  have hmid : kwMid.countP (kwMatch t1) = kwMid.countP (kwMatch t2) := by
    refine List.countP_congr (fun w hw => ?_)
    have h := hmem w (List.mem_append_left _ hw)
    rw [hrest w h.1 h.2.1 h.2.2]
  have hrest2 : kwRest.countP (kwMatch t1) = kwRest.countP (kwMatch t2) := by
    refine List.countP_congr (fun w hw => ?_)
    have h := hmem w (List.mem_append_right _ hw)
    rw [hrest w h.1 h.2.1 h.2.2]
  rw [kw_split]
  simp only [List.countP_cons, List.countP_append, h1r, h1q, h2r, h2q, hmid, hrest2,
    eq_self_iff_true, if_true, Bool.false_eq_true, if_false]
  omega

/-- C4: the final boosted score is the base score plus 0.05 per vocabulary
term whose lowercase form occurs in the lowercased section text; and a text
containing "revenue" and "Q3" scores at least 0.10 above a text lacking both
terms but agreeing on every other vocabulary term, at equal base score. -/
theorem C4_boost_is_base_plus_keyword_count :
    (∀ (text : String) (s : ℚ),
        boost_score_with_keywords text s = s + (5/100) * specKeywordCount text) ∧
    (∀ (t1 t2 : String) (s : ℚ),
        kwMatch t1 "revenue" = true → kwMatch t1 "Q3" = true →
        kwMatch t2 "revenue" = false → kwMatch t2 "Q3" = false →
        (∀ w ∈ financial_keywords, w ≠ "revenue" → w ≠ "Q3" →
          kwMatch t1 w = kwMatch t2 w) →
        boost_score_with_keywords t2 s + 1/10 ≤ boost_score_with_keywords t1 s) := by
  have hform : ∀ (text : String) (s : ℚ),
      boost_score_with_keywords text s =
        s + (5/100) * financial_keywords.countP (kwMatch text) := by
    intro text s
    unfold boost_score_with_keywords
    rw [foldl_count_eq_countP (kwMatch text) financial_keywords 0]
    simp
  constructor
  · intro text s
    rw [hform]
    unfold specKeywordCount
    rw [List.countP_eq_length_filter]
    rfl
  · intro t1 t2 s h1r h1q h2r h2q hrest
    have hc := countP_gain_two h1r h1q h2r h2q hrest
    rw [hform, hform]
    have hc' : ((financial_keywords.countP (kwMatch t2) : ℚ) + 2) ≤
        (financial_keywords.countP (kwMatch t1) : ℚ) := by exact_mod_cast hc
    linarith

/-- Witness for C4 at concrete texts: "Q3 revenue up" gains a boost of 0.10
over "steady outlook" at equal base score 0. -/
theorem C4_witness :
    (kwMatch "Q3 revenue up" "revenue" = true ∧
      kwMatch "Q3 revenue up" "Q3" = true ∧
      kwMatch "steady outlook" "revenue" = false ∧
      kwMatch "steady outlook" "Q3" = false ∧
      (∀ w ∈ financial_keywords, w ≠ "revenue" → w ≠ "Q3" →
        kwMatch "Q3 revenue up" w = kwMatch "steady outlook" w)) ∧
    boost_score_with_keywords "steady outlook" 0 + 1/10 ≤
      boost_score_with_keywords "Q3 revenue up" 0 :=
  ⟨⟨by decide, by decide, by decide, by decide, by decide⟩,
    C4_boost_is_base_plus_keyword_count.2 "Q3 revenue up" "steady outlook" 0
      (by decide) (by decide) (by decide) (by decide) (by decide)⟩

/-! When no font size is collected, no candidate can exist. -/

theorem lineCandidate_sizes_nil {detect : String → Option String} {n : Nat}
    {ln : TextLine} (h : (lineCandidate detect n ln).2 = []) :
    (lineCandidate detect n ln).1 = none := by
  unfold lineCandidate at *
  dsimp only at *
  split at h
  next hcond =>
    rw [if_pos hcond]
  next hcond =>
    exfalso
    dsimp only at h
    rw [List.map_eq_nil_iff, List.map_eq_nil_iff] at h
    rw [h] at hcond
    exact hcond rfl

theorem linesData_sizes_nil {detect : String → Option String} {n : Nat} :
    ∀ {lns : List TextLine}, (linesData detect n lns).2 = [] →
      (linesData detect n lns).1 = [] := by
  intro lns
  induction lns with
  | nil => intro h; rfl
  | cons ln rest ih =>
    intro h
    rw [linesData] at h ⊢
    dsimp only at h ⊢
    rcases List.append_eq_nil.mp h with ⟨h1, h2⟩
    rw [lineCandidate_sizes_nil h1, ih h2]
    rfl

theorem blocksData_sizes_nil {detect : String → Option String} {n : Nat} :
    ∀ {bs : List Block}, (blocksData detect n bs).2 = [] →
      (blocksData detect n bs).1 = [] := by
  intro bs
  induction bs with
  | nil => intro h; rfl
  | cons b rest ih =>
    intro h
    rw [blocksData] at h ⊢
    dsimp only at h ⊢
    rcases List.append_eq_nil.mp h with ⟨h1, h2⟩
    rw [ih h2]
    by_cases hb : b.btype == 0
    · rw [if_pos hb] at h1 ⊢
      rw [linesData_sizes_nil h1]
      rfl
    · rw [if_neg hb] at h1 ⊢
      rfl

theorem pagesData_sizes_nil {detect : String → Option String} :
    ∀ {n : Nat} {pgs : List Page}, (pagesData detect n pgs).2 = [] →
      (pagesData detect n pgs).1 = [] := by
  intro n pgs
  induction pgs generalizing n with
  | nil => intro h; rfl
  | cons pg rest ih =>
    intro h
    rw [pagesData] at h ⊢
    dsimp only at h ⊢
    rcases List.append_eq_nil.mp h with ⟨h1, h2⟩
    rw [blocksData_sizes_nil h1, ih h2]
    rfl

/-- The body of extract_outline once at least one font size was collected. -/
theorem extract_outline_eq_filter {detect : String → Option String} {doc : Doc}
    (hs : (docCandidates detect doc).2.isEmpty = false) :
    extract_outline detect doc =
      ((dedupKeep (docCandidates detect doc).1 []).filter
        (headingSignals ((modeOf (docCandidates detect doc).2).getD 0))).map
        mkEntry := by
  unfold extract_outline
  dsimp only
  rw [if_neg (by rw [hs]; exact Bool.false_ne_true)]
  exact outlineLoop_eq_filter_dedup _ _ _

/-- C6: in every outline no two entries share a text; the outline is the
image of a sublist of the candidate stream, so it preserves reading order;
and each entry is built from the first candidate carrying its text. -/
theorem C6_outline_dedup_first_occurrence (detect : String → Option String)
    (doc : Doc) :
    (extract_outline detect doc).Pairwise (fun a b => a.text ≠ b.text) ∧
    (∃ l, List.Sublist l (docCandidates detect doc).1 ∧
      extract_outline detect doc = l.map mkEntry) ∧
    (∀ e ∈ extract_outline detect doc,
      ∃ c, (docCandidates detect doc).1.find? (fun d => d.text == e.text) =
            some c ∧ e = mkEntry c) := by
  by_cases hs : (docCandidates detect doc).2.isEmpty
  · have hout : extract_outline detect doc = [] := by
      unfold extract_outline
      dsimp only
      rw [if_pos hs]
    rw [hout]
    exact ⟨List.Pairwise.nil, ⟨[], List.nil_sublist _, rfl⟩, by simp⟩
  · rw [extract_outline_eq_filter (Bool.not_eq_true _ ▸ hs)]
    refine ⟨?_, ?_, ?_⟩
    · have hp : ((dedupKeep (docCandidates detect doc).1 []).filter
          (headingSignals ((modeOf (docCandidates detect doc).2).getD 0))).Pairwise
          (fun a b => a.text ≠ b.text) :=
        (dedupKeep_pairwise _ _).sublist (List.filter_sublist _)
      exact List.pairwise_map.mpr hp
    · exact ⟨_, (List.filter_sublist _).trans (dedupKeep_sublist _ _), rfl⟩
    · intro e he
      obtain ⟨c, hcf, rfl⟩ := List.mem_map.mp he
      have hcd := (List.mem_filter.mp hcf).1
      obtain ⟨-, -, hfind⟩ := mem_dedupKeep_spec hcd
      exact ⟨c, hfind, rfl⟩

/-- Witness for C6 at the concrete two-line document: the first outline
entry comes from the first candidate with its text, and the outline is
duplicate-free. -/
theorem C6_witness :
    (⟨"H3", "1 Introduction to U.S. markets", 1, "unknown"⟩ : OutlineEntry) ∈
        extract_outline noDetect c2Doc ∧
      (extract_outline noDetect c2Doc).Pairwise (fun a b => a.text ≠ b.text) ∧
      (∃ c, (docCandidates noDetect c2Doc).1.find?
          (fun d => d.text == "1 Introduction to U.S. markets") = some c ∧
          (⟨"H3", "1 Introduction to U.S. markets", 1, "unknown"⟩ : OutlineEntry)
            = mkEntry c) := by
  have hc := C6_outline_dedup_first_occurrence noDetect c2Doc
  have hmem : (⟨"H3", "1 Introduction to U.S. markets", 1, "unknown"⟩ :
      OutlineEntry) ∈ extract_outline noDetect c2Doc := by
    with_unfolding_all decide
  exact ⟨hmem, hc.1, hc.2.2 _ hmem⟩

/-- C3: a deduplicated candidate of admissible length appears in the outline
exactly when one of the four heading signals fires: font size more than
1 point above the document mode, bold style, fully upper-case text, or a
leading numbering match. -/
theorem C3_heading_iff_one_of_four_signals (detect : String → Option String)
    (doc : Doc) (c : Candidate)
    (hc : c ∈ dedupKeep (docCandidates detect doc).1 []) :
    (∃ e ∈ extract_outline detect doc, e.text = c.text) ↔
      ((modeOf (docCandidates detect doc).2).getD 0 + 1 < c.font_size ∨
        c.is_bold = true ∨ pyIsUpper c.text.data = true ∨
        numberedStart c.text.data = true) := by
  have hmem : c ∈ (docCandidates detect doc).1 :=
    (dedupKeep_sublist _ _).subset hc
  have hs : (docCandidates detect doc).2.isEmpty = false := by
    rcases he : (docCandidates detect doc).2.isEmpty with _ | _
    · rfl
    · rw [List.isEmpty_iff] at he
      have hnil : (docCandidates detect doc).1 = [] := pagesData_sizes_nil he
      rw [hnil] at hmem
      exact absurd hmem (List.not_mem_nil c)
  rw [extract_outline_eq_filter hs]
  have hsignal : (((modeOf (docCandidates detect doc).2).getD 0 + 1 <
        c.font_size ∨ c.is_bold = true ∨ pyIsUpper c.text.data = true ∨
        numberedStart c.text.data = true)) ↔
      headingSignals ((modeOf (docCandidates detect doc).2).getD 0) c = true := by
    simp only [headingSignals, Bool.or_eq_true, decide_eq_true_eq]
    tauto
  rw [hsignal]
  constructor
  · rintro ⟨e, he, hetext⟩
    obtain ⟨c', hc', hec⟩ := List.mem_map.mp he
    have hfind' := (mem_dedupKeep_spec (List.mem_filter.mp hc').1).2.2
    have hfind := (mem_dedupKeep_spec hc).2.2
    have htext : c'.text = c.text := by
      rw [← hetext, ← hec]
      rfl
    rw [htext] at hfind'
    have hcc : c' = c := Option.some.inj (hfind'.symm.trans hfind)
    rw [← hcc]
    exact (List.mem_filter.mp hc').2
  · intro hsig
    exact ⟨mkEntry c,
      List.mem_map_of_mem _ (List.mem_filter.mpr ⟨hc, hsig⟩), rfl⟩

/-- Witness for C3 at the bold 18pt line "1.1 Introduction" of the spec
scenario document: the candidate survives dedup, and the equivalence holds
with the numbering and bold signals firing. -/
theorem C3_witness :
    (⟨"1.1 Introduction", 1, 18, "Helv-Bold", true, "unknown"⟩ : Candidate) ∈
        dedupKeep (docCandidates noDetect scenDoc).1 [] ∧
      ((∃ e ∈ extract_outline noDetect scenDoc,
          e.text = "1.1 Introduction") ↔
        ((modeOf (docCandidates noDetect scenDoc).2).getD 0 + 1 < 18 ∨
          (true : Bool) = true ∨ pyIsUpper "1.1 Introduction".data = true ∨
          numberedStart "1.1 Introduction".data = true)) := by
  refine ⟨by with_unfolding_all decide, ?_⟩
  exact C3_heading_iff_one_of_four_signals noDetect scenDoc
    ⟨"1.1 Introduction", 1, 18, "Helv-Bold", true, "unknown"⟩
    (by with_unfolding_all decide)

/-! Helper lemmas about the ranking sort. -/

theorem scoreGE_trans : ∀ (a b c : ScoredSection),
    scoreGE a b → scoreGE b c → scoreGE a c := by
  intro a b c hab hbc
  simp only [scoreGE, decide_eq_true_eq] at *
  exact le_trans hbc hab

theorem scoreGE_total : ∀ (a b : ScoredSection), scoreGE a b || scoreGE b a := by
  intro a b
  simp only [scoreGE, Bool.or_eq_true, decide_eq_true_eq]
  exact le_total _ _

/-- C5: the ranked output is the scored input sorted by final score
descending (pairwise, scores never increase along the output), ties keep
the original relative order (a tied pair that is a sublist of the scored
input stays a sublist of the sorted list), the output has exactly
min 20 n entries, and the attached importance ranks are 1, 2, ... in order. -/
theorem C5_ranking_sorted_stable_truncated (sim : String → ℚ)
    (secs : List SectionRec) :
    (rankedSections sim secs).length = min 20 secs.length ∧
    (withRanks (rankedSections sim secs)).map Prod.snd =
      List.range' 1 (rankedSections sim secs).length ∧
    (rankedSections sim secs).Pairwise
      (fun a b => b.boosted_score ≤ a.boosted_score) ∧
    (∀ x y : ScoredSection, List.Sublist [x, y] (scoredOf sim secs) →
      x.boosted_score = y.boosted_score →
      List.Sublist [x, y] (score_sections sim secs)) := by
  refine ⟨?_, ?_, ?_, ?_⟩
  · show ((scoredOf sim secs).mergeSort scoreGE |>.take 20).length = _
    rw [List.length_take, List.length_mergeSort]
    simp [scoredOf]
  · exact List.map_snd_zip _ _ (by rw [List.length_range'])
  · have hs : ((scoredOf sim secs).mergeSort scoreGE).Pairwise
        (fun a b => scoreGE a b = true) :=
      List.sorted_mergeSort scoreGE_trans scoreGE_total _
    have ht : (rankedSections sim secs).Pairwise (fun a b => scoreGE a b = true) :=
      hs.sublist (List.take_sublist _ _)
    exact ht.imp (fun h => by simpa [scoreGE, decide_eq_true_eq] using h)
  · intro x y hsub heq
    refine List.pair_sublist_mergeSort scoreGE_trans scoreGE_total ?_ hsub
    simp only [scoreGE, decide_eq_true_eq]
    exact le_of_eq heq.symm

/-- Witness for C5 at two concrete tied sections: the tied pair keeps its
original order through the sort, and the output length and ranks match. -/
theorem C5_witness :
    (List.Sublist ([⟨w5a, 0⟩, ⟨w5b, 0⟩] : List ScoredSection)
        (scoredOf (fun _ => 0) [w5a, w5b]) ∧
      (⟨w5a, 0⟩ : ScoredSection).boosted_score =
        (⟨w5b, 0⟩ : ScoredSection).boosted_score) ∧
    ((rankedSections (fun _ => 0) [w5a, w5b]).length = min 20 2 ∧
      List.Sublist ([⟨w5a, 0⟩, ⟨w5b, 0⟩] : List ScoredSection)
        (score_sections (fun _ => 0) [w5a, w5b])) := by
  have hc := C5_ranking_sorted_stable_truncated (fun _ => 0) [w5a, w5b]
  have hsub : List.Sublist ([⟨w5a, 0⟩, ⟨w5b, 0⟩] : List ScoredSection)
      (scoredOf (fun _ => 0) [w5a, w5b]) := by with_unfolding_all decide
  have heq : (⟨w5a, 0⟩ : ScoredSection).boosted_score =
      (⟨w5b, 0⟩ : ScoredSection).boosted_score := rfl
  exact ⟨⟨hsub, heq⟩, ⟨hc.1, hc.2.2.2 _ _ hsub heq⟩⟩

/-- C10: a file name whose ".pdf" extension is not lower-case is selected by
the processing loop (which lowercases the name before testing the
extension), so all its sections enter the ranked pool, but it is absent from
the metadata input_documents list (which tests the extension
case-sensitively). -/
theorem C10_case_mismatch_processed_not_listed
    (files : List String) (f : String) (hf : f ∈ files)
    (hlow : ".pdf".data.isSuffixOf (lowerL f.data) = true)
    (hup : ".pdf".data.isSuffixOf f.data = false) :
    f ∈ processed_input_names files ∧
      f ∉ metadata_input_documents files ∧
      ∀ (detect : String → Option String) (docOf : String → Doc)
        (s : SectionRec), s ∈ extract_sections detect f (docOf f) →
          s ∈ all_sections detect docOf files := by
  refine ⟨List.mem_filter.mpr ⟨hf, hlow⟩, ?_, ?_⟩
  · intro hmem
    have := (List.mem_filter.mp hmem).2
    rw [hup] at this
    exact Bool.false_ne_true this
  · intro detect docOf s hs
    exact List.mem_flatMap.mpr ⟨f, List.mem_filter.mpr ⟨hf, hlow⟩, hs⟩

/-- Witness for C10: "report.PDF" is processed (its long line becomes a
section in the pool) yet omitted from the metadata list. -/
theorem C10_witness :
    ("report.PDF" ∈ ["report.PDF", "notes.txt"] ∧
      ".pdf".data.isSuffixOf (lowerL "report.PDF".data) = true ∧
      ".pdf".data.isSuffixOf "report.PDF".data = false) ∧
    ("report.PDF" ∈ processed_input_names ["report.PDF", "notes.txt"] ∧
      "report.PDF" ∉ metadata_input_documents ["report.PDF", "notes.txt"] ∧
      ∀ (detect : String → Option String) (docOf : String → Doc)
        (s : SectionRec),
          s ∈ extract_sections detect "report.PDF" (docOf "report.PDF") →
            s ∈ all_sections detect docOf ["report.PDF", "notes.txt"]) :=
  ⟨⟨by decide, by decide, by decide⟩,
    C10_case_mismatch_processed_not_listed ["report.PDF", "notes.txt"]
      "report.PDF" (by decide) (by decide) (by decide)⟩

/-! Helper lemmas for C9: the pipelines depend on the language detector only
through the language fields, and a failing detection yields "unknown". -/

theorem toList_map_of_map_eq {α β : Type} {o1 o2 : Option α} {f : α → β}
    (h : o1.map f = o2.map f) : o1.toList.map f = o2.toList.map f := by
  cases o1 <;> cases o2 <;> simp_all

theorem lineCandidate_core_eq (d1 d2 : String → Option String) (n : Nat)
    (ln : TextLine) :
    ((lineCandidate d1 n ln).1).map candCore =
        ((lineCandidate d2 n ln).1).map candCore ∧
      (lineCandidate d1 n ln).2 = (lineCandidate d2 n ln).2 := by
  unfold lineCandidate
  dsimp only
  split <;> exact ⟨rfl, rfl⟩

theorem linesData_core_eq (d1 d2 : String → Option String) (n : Nat) :
    ∀ lns : List TextLine,
      ((linesData d1 n lns).1).map candCore =
          ((linesData d2 n lns).1).map candCore ∧
        (linesData d1 n lns).2 = (linesData d2 n lns).2 := by
  intro lns
  induction lns with
  | nil => exact ⟨rfl, rfl⟩
  | cons ln rest ih =>
    rw [linesData, linesData]
    dsimp only
    obtain ⟨h1, h2⟩ := lineCandidate_core_eq d1 d2 n ln
    refine ⟨?_, by rw [h2, ih.2]⟩
    rw [List.map_append, List.map_append, ih.1, toList_map_of_map_eq h1]

theorem blocksData_core_eq (d1 d2 : String → Option String) (n : Nat) :
    ∀ bs : List Block,
      ((blocksData d1 n bs).1).map candCore =
          ((blocksData d2 n bs).1).map candCore ∧
        (blocksData d1 n bs).2 = (blocksData d2 n bs).2 := by
  intro bs
  induction bs with
  | nil => exact ⟨rfl, rfl⟩
  | cons b rest ih =>
    rw [blocksData, blocksData]
    dsimp only
    by_cases hb : b.btype == 0
    · rw [if_pos hb, if_pos hb]
      obtain ⟨h1, h2⟩ := linesData_core_eq d1 d2 n b.lines
      refine ⟨?_, by rw [h2, ih.2]⟩
      rw [List.map_append, List.map_append, ih.1, h1]
    · rw [if_neg hb, if_neg hb]
      refine ⟨?_, by rw [ih.2]⟩
      rw [List.map_append, List.map_append, ih.1]

theorem pagesData_core_eq (d1 d2 : String → Option String) :
    ∀ (n : Nat) (pgs : List Page),
      ((pagesData d1 n pgs).1).map candCore =
          ((pagesData d2 n pgs).1).map candCore ∧
        (pagesData d1 n pgs).2 = (pagesData d2 n pgs).2 := by
  intro n pgs
  induction pgs generalizing n with
  | nil => exact ⟨rfl, rfl⟩
  | cons pg rest ih =>
    rw [pagesData, pagesData]
    dsimp only
    obtain ⟨h1, h2⟩ := blocksData_core_eq d1 d2 n pg.blocks
    refine ⟨?_, by rw [h2, (ih (n + 1)).2]⟩
    rw [List.map_append, List.map_append, (ih (n + 1)).1, h1]

theorem candCore_text {c1 c2 : Candidate} (h : candCore c1 = candCore c2) :
    c1.text = c2.text := congrArg (fun p => p.1) h

theorem candCore_page {c1 c2 : Candidate} (h : candCore c1 = candCore c2) :
    c1.page = c2.page := congrArg (fun p => p.2.1) h

theorem candCore_font_size {c1 c2 : Candidate} (h : candCore c1 = candCore c2) :
    c1.font_size = c2.font_size := congrArg (fun p => p.2.2.1) h

theorem candCore_is_bold {c1 c2 : Candidate} (h : candCore c1 = candCore c2) :
    c1.is_bold = c2.is_bold := congrArg (fun p => p.2.2.2.2) h

theorem outlineLoop_core_congr (b : ℚ) :
    ∀ (cs1 cs2 : List Candidate) (seen : List String),
      cs1.map candCore = cs2.map candCore →
        (outlineLoop b cs1 seen).map entryCore =
          (outlineLoop b cs2 seen).map entryCore := by
  intro cs1
  induction cs1 with
  | nil =>
    intro cs2 seen h
    cases cs2 with
    | nil => rfl
    | cons c2 rest2 => exact absurd h (by simp)
  | cons c1 rest1 ih =>
    intro cs2 seen h
    cases cs2 with
    | nil => exact absurd h (by simp)
    | cons c2 rest2 =>
      rw [List.map_cons, List.map_cons] at h
      have hcc : candCore c1 = candCore c2 := (List.cons.injEq _ _ _ _ ▸ h).1
      have hrest : rest1.map candCore = rest2.map candCore :=
        (List.cons.injEq _ _ _ _ ▸ h).2
      have ht := candCore_text hcc
      have hp := candCore_page hcc
      have hsig : headingSignals b c1 = headingSignals b c2 := by
        unfold headingSignals
        rw [ht, candCore_font_size hcc, candCore_is_bold hcc]
      rw [outlineLoop, outlineLoop]
      by_cases hskip : (seen.contains c1.text || decide (c1.text.length < 5)) = true
      · have hskip2 : (seen.contains c2.text || decide (c2.text.length < 5)) = true := by
          rw [← ht]
          exact hskip
        rw [if_pos hskip, if_pos hskip2]
        exact ih rest2 seen hrest
      · have hskip2 : ¬(seen.contains c2.text || decide (c2.text.length < 5)) = true := by
          rw [← ht]
          exact hskip
        rw [if_neg hskip, if_neg hskip2]
        by_cases hh : headingSignals b c1 = true
        · rw [if_pos hh, if_pos (hsig ▸ hh)]
          rw [List.map_cons, List.map_cons]
          have hent : entryCore (mkEntry c1) = entryCore (mkEntry c2) := by
            show ((classify_heading_level c1.text).getD "H1", c1.text, c1.page) =
              ((classify_heading_level c2.text).getD "H1", c2.text, c2.page)
            rw [ht, hp]
          rw [hent, ht]
          rw [ih rest2 (c2.text :: seen) hrest]
        · rw [if_neg hh, if_neg (hsig ▸ hh)]
          rw [ht]
          exact ih rest2 (c2.text :: seen) hrest

theorem lineCandidate_some_language {detect : String → Option String} {n : Nat}
    {ln : TextLine} {c : Candidate}
    (h : (lineCandidate detect n ln).1 = some c) :
    c.language = (detect c.text).getD "unknown" := by
  unfold lineCandidate at h
  dsimp only at h
  split at h
  · exact absurd h (by simp)
  · cases Option.some.inj h
    rfl

theorem mem_linesData_language {detect : String → Option String} {n : Nat} :
    ∀ {lns : List TextLine} {c : Candidate}, c ∈ (linesData detect n lns).1 →
      c.language = (detect c.text).getD "unknown" := by
  intro lns
  induction lns with
  | nil => intro c hc; exact absurd hc (List.not_mem_nil c)
  | cons ln rest ih =>
    intro c hc
    rw [linesData] at hc
    dsimp only at hc
    rcases List.mem_append.mp hc with hc | hc
    · cases ho : (lineCandidate detect n ln).1 with
      | none => rw [ho] at hc; exact absurd hc (List.not_mem_nil c)
      | some v =>
        rw [ho] at hc
        rcases List.mem_singleton.mp hc with rfl
        exact lineCandidate_some_language ho
    · exact ih hc

theorem mem_blocksData_language {detect : String → Option String} {n : Nat} :
    ∀ {bs : List Block} {c : Candidate}, c ∈ (blocksData detect n bs).1 →
      c.language = (detect c.text).getD "unknown" := by
  intro bs
  induction bs with
  | nil => intro c hc; exact absurd hc (List.not_mem_nil c)
  | cons b rest ih =>
    intro c hc
    rw [blocksData] at hc
    dsimp only at hc
    rcases List.mem_append.mp hc with hc | hc
    · by_cases hb : b.btype == 0
      · rw [if_pos hb] at hc
        exact mem_linesData_language hc
      · rw [if_neg hb] at hc
        exact absurd hc (List.not_mem_nil c)
    · exact ih hc

theorem mem_pagesData_language {detect : String → Option String} :
    ∀ {n : Nat} {pgs : List Page} {c : Candidate},
      c ∈ (pagesData detect n pgs).1 →
        c.language = (detect c.text).getD "unknown" := by
  intro n pgs
  induction pgs generalizing n with
  | nil => intro c hc; exact absurd hc (List.not_mem_nil c)
  | cons pg rest ih =>
    intro c hc
    rw [pagesData] at hc
    dsimp only at hc
    rcases List.mem_append.mp hc with hc | hc
    · exact mem_blocksData_language hc
    · exact ih hc

theorem lineSection_core_eq (d1 d2 : String → Option String) (dn : String)
    (n : Nat) (ln : TextLine) :
    (lineSection d1 dn n ln).map secCore = (lineSection d2 dn n ln).map secCore := by
  unfold lineSection
  dsimp only
  split
  · rfl
  · split <;> rfl

theorem linesSections_core_eq (d1 d2 : String → Option String) (dn : String)
    (n : Nat) :
    ∀ lns : List TextLine,
      (linesSections d1 dn n lns).map secCore =
        (linesSections d2 dn n lns).map secCore := by
  intro lns
  induction lns with
  | nil => rfl
  | cons ln rest ih =>
    rw [linesSections, linesSections, List.map_append, List.map_append, ih,
      toList_map_of_map_eq (lineSection_core_eq d1 d2 dn n ln)]

theorem blocksSections_core_eq (d1 d2 : String → Option String) (dn : String)
    (n : Nat) :
    ∀ bs : List Block,
      (blocksSections d1 dn n bs).map secCore =
        (blocksSections d2 dn n bs).map secCore := by
  intro bs
  induction bs with
  | nil => rfl
  | cons b rest ih =>
    rw [blocksSections, blocksSections, List.map_append, List.map_append, ih]
    by_cases hb : b.btype == 0
    · rw [if_pos hb, if_pos hb, linesSections_core_eq d1 d2 dn n]
    · rw [if_neg hb, if_neg hb]

theorem pagesSections_core_eq (d1 d2 : String → Option String) (dn : String) :
    ∀ (n : Nat) (pgs : List Page),
      (pagesSections d1 dn n pgs).map secCore =
        (pagesSections d2 dn n pgs).map secCore := by
  intro n pgs
  induction pgs generalizing n with
  | nil => rfl
  | cons pg rest ih =>
    rw [pagesSections, pagesSections, List.map_append, List.map_append,
      ih (n + 1), blocksSections_core_eq d1 d2 dn n]

theorem lineSection_some_fields {detect : String → Option String} {dn : String}
    {n : Nat} {ln : TextLine} {s : SectionRec}
    (h : lineSection detect dn n ln = some s) :
    s.section_title = takeStr 120 (lineTextJoined ln) ∧
      s.language = (detect (lineTextJoined ln)).getD "unknown" := by
  unfold lineSection at h
  simp only [] at h
  split at h
  · exact absurd h (by simp)
  · split at h
    · exact absurd h (by simp)
    · cases Option.some.inj h
      exact ⟨rfl, rfl⟩

/-- C9: in both pipelines everything except the per-line language field is
independent of the language detector, so a failing detection can never abort
or change the processing of other lines; and a line whose detection fails
carries the sentinel language "unknown": in the outline pipeline an entry
whose text fails detection has language "unknown", and in the section
pipeline every record takes its language from the detector output on its
source line text, with "unknown" substituted on failure. -/
theorem C9_detect_failure_gives_unknown_never_aborts :
    (∀ (d1 d2 : String → Option String) (doc : Doc),
        (extract_outline d1 doc).map entryCore =
          (extract_outline d2 doc).map entryCore) ∧
    (∀ (detect : String → Option String) (doc : Doc) (e : OutlineEntry),
        e ∈ extract_outline detect doc → detect e.text = none →
          e.language = "unknown") ∧
    (∀ (d1 d2 : String → Option String) (path : String) (doc : Doc),
        (extract_sections d1 path doc).map secCore =
          (extract_sections d2 path doc).map secCore) ∧
    (∀ (detect : String → Option String) (path : String) (doc : Doc)
        (s : SectionRec), s ∈ extract_sections detect path doc →
          ∃ t, s.section_title = takeStr 120 t ∧
            s.language = (detect t).getD "unknown") := by
  refine ⟨?_, ?_, ?_, ?_⟩
  · intro d1 d2 doc
    obtain ⟨hcand, hsizes⟩ := pagesData_core_eq d1 d2 1 doc.pages
    unfold extract_outline
    dsimp only
    have hsz : (docCandidates d1 doc).2 = (docCandidates d2 doc).2 := hsizes
    rw [hsz]
    by_cases hemp : (docCandidates d2 doc).2.isEmpty = true
    · rw [if_pos hemp, if_pos hemp]
    · rw [if_neg hemp, if_neg hemp]
      exact outlineLoop_core_congr _ _ _ _ hcand
  · intro detect doc e he hdet
    by_cases hemp : (docCandidates detect doc).2.isEmpty = true
    · have hout : extract_outline detect doc = [] := by
        unfold extract_outline
        dsimp only
        rw [if_pos hemp]
      rw [hout] at he
      exact absurd he (List.not_mem_nil e)
    · rw [extract_outline_eq_filter (Bool.not_eq_true _ ▸ hemp)] at he
      obtain ⟨c, hcf, rfl⟩ := List.mem_map.mp he
      have hcmem : c ∈ (docCandidates detect doc).1 :=
        (dedupKeep_sublist _ _).subset (List.mem_filter.mp hcf).1
      have hlang : c.language = (detect c.text).getD "unknown" :=
        mem_pagesData_language hcmem
      show c.language = "unknown"
      rw [hlang]
      have : detect c.text = none := hdet
      rw [this]
      rfl
  · intro d1 d2 path doc
    exact pagesSections_core_eq d1 d2 (basename path) 1 doc.pages
  · intro detect path doc s hs
    obtain ⟨m, ln, hv⟩ := mem_pagesSections hs
    obtain ⟨h1, h2⟩ := lineSection_some_fields hv
    exact ⟨lineTextJoined ln, h1, h2⟩

/-- Witness for C9 at concrete documents with an always-failing detector:
the outline entry of the scenario document and the section record of the
long-line document both carry the language "unknown", and erasing the
language fields the outputs match those under a succeeding detector. -/
theorem C9_witness :
    ((⟨"H2", "1.1 Introduction", 1, "unknown"⟩ : OutlineEntry) ∈
        extract_outline noDetect scenDoc ∧
      noDetect "1.1 Introduction" = none ∧
      (⟨"H2", "1.1 Introduction", 1, "unknown"⟩ : OutlineEntry).language =
        "unknown") ∧
    ((extract_outline noDetect scenDoc).map entryCore =
      (extract_outline (fun _ => some "en") scenDoc).map entryCore) ∧
    ((extract_sections noDetect "input/b.pdf" w8Doc).map secCore =
      (extract_sections (fun _ => some "en") "input/b.pdf" w8Doc).map secCore) ∧
    (w8Sec ∈ extract_sections noDetect "input/b.pdf" w8Doc ∧
      ∃ t, w8Sec.section_title = takeStr 120 t ∧
        w8Sec.language = (noDetect t).getD "unknown") := by
  have hc := C9_detect_failure_gives_unknown_never_aborts
  have hmem : (⟨"H2", "1.1 Introduction", 1, "unknown"⟩ : OutlineEntry) ∈
      extract_outline noDetect scenDoc := by with_unfolding_all decide
  have hsecmem : w8Sec ∈ extract_sections noDetect "input/b.pdf" w8Doc := by
    decide
  exact ⟨⟨hmem, rfl, hc.2.1 noDetect scenDoc _ hmem rfl⟩,
    hc.1 noDetect (fun _ => some "en") scenDoc,
    hc.2.2.1 noDetect (fun _ => some "en") "input/b.pdf" w8Doc,
    hsecmem, hc.2.2.2 noDetect "input/b.pdf" w8Doc w8Sec hsecmem⟩

end Adobe
